import Mathlib

/-!
Verification development for the `linkchecker` crawler.

The definitions below are a shallow embedding of the Go sources
(`types.go`, `parser.go`, `crawler.go`, `checker.go`, `main.go`).
Pure functions become Lean functions; the concurrent crawl becomes an
explicit state-passing serialization (the Go mutexes serialize every
access to the visited map and to the result slice, so any concurrent
execution is an interleaving of the atomic steps modelled here).
HTTP fetching is modelled by an oracle `String → Fetch`; the links
component of a response models what `extractLinks` returns for the
fetched page body resolved against the page URL.
-/

/-! ## Data model (`types.go`) -/

/-- Model of `LinkResult` (types.go).  `Error` is `Option String`
(`nil` ↦ `none`); `Status` is a natural number (Go `int`, always a
non-negative HTTP status or 0 here). -/
structure LinkResult where
  URL : String
  Status : Nat
  Error : Option String
  IsBroken : Bool
  SourceURL : String
deriving Repr, DecidableEq

/-- Model of `SafeUrlMap` (types.go): the Go `map[string]bool` that only
ever stores `true` is modelled as the list of its keys. -/
structure SafeUrlMap where
  visited : List String
deriving Repr, DecidableEq

/-- Model of `SafeUrlMap.Visit` (types.go): marks a URL as visited and
returns `true` iff it was already visited.  The Go method runs under
`s.mu.Lock()`, so each call is one atomic step. -/
def SafeUrlMap.Visit (s : SafeUrlMap) (url : String) : Bool × SafeUrlMap :=
  if url ∈ s.visited then (true, s)
  else (false, { visited := url :: s.visited })

/-- Model of `maxDepth` (types.go line 6). -/
def maxDepth : Nat := 2

/-! ## Model of Go `net/url` host extraction

`parser.go`'s `isSameDomain` calls the standard library `url.Parse` and
compares the `Host` fields.  The following definitions model
`net/url.Parse` restricted to what determines parse success and the
`Host` field: fragment cut, control-byte check, scheme scan, query cut,
authority extraction, userinfo validation, host validation (port digits,
allowed host bytes, percent escapes) and percent-decoding of the host,
plus the escape validation of path and fragment that can also fail the
parse.  We work on `List Char` (one `Char` per byte for the ASCII range;
multi-byte UTF-8 assembly of decoded `%XY` escapes ≥ 0x80 and the
IPv6-zone special casing of `unescape` are elided, as are the
non-Latin-1 cases of `unicode.IsSpace`). -/

/-- A control byte in the sense of `net/url.stringContainsCTLByte`. -/
def isCTL (c : Char) : Bool := c.toNat < 0x20 || c.toNat == 0x7f

/-- Characters before the first occurrence of `c` (Go `split(s, c, true)`,
keeping the part before the separator). -/
def cutAtChar (c : Char) : List Char → List Char
  | [] => []
  | x :: xs => if x = c then [] else x :: cutAtChar c xs

/-- Characters after the first occurrence of `c`, or `none` if `c` does
not occur. -/
def afterFirstOpt (c : Char) : List Char → Option (List Char)
  | [] => none
  | x :: xs => if x = c then some xs else afterFirstOpt c xs

/-- Characters strictly after the last occurrence of `c`, or `none` if
`c` does not occur. -/
def afterLast (c : Char) (l : List Char) : Option (List Char) :=
  if l.contains c then some (l.reverse.takeWhile (fun x => x ≠ c)).reverse
  else none

/-- Hex digit test (`net/url.ishex`). -/
def isHexChar (c : Char) : Bool :=
  c.isDigit || (97 ≤ c.toNat && c.toNat ≤ 102) || (65 ≤ c.toNat && c.toNat ≤ 70)

/-- Hex digit value (`net/url.unhex`). -/
def hexVal (c : Char) : Nat :=
  if c.isDigit then c.toNat - 48
  else if 97 ≤ c.toNat && c.toNat ≤ 102 then c.toNat - 87
  else c.toNat - 55

/-- ASCII bytes allowed unescaped in a host component
(`net/url.shouldEscape` with mode `encodeHost` returning `false`). -/
def isHostByteAllowed (c : Char) : Bool :=
  c.isAlpha || c.isDigit ||
  ['-', '_', '.', '~', '!', '$', '&', Char.ofNat 39, '(', ')', '*', '+',
   ',', ';', '=', ':', '[', ']', '<', '>', '\"'].contains c

/-- Model of `net/url.unescape` with mode `encodeHost`: validates that
every unescaped ASCII byte is allowed in a host, that every `%` starts a
well-formed escape, that only `%25` and escapes ≥ `%80` appear, and
percent-decodes. -/
def unescapeHost : List Char → Option (List Char)
  | [] => some []
  | '%' :: rest =>
    match rest with
    | h1 :: h2 :: rest2 =>
      if isHexChar h1 && isHexChar h2 then
        if hexVal h1 < 8 && !(h1 == '2' && h2 == '5') then none
        else (unescapeHost rest2).map (fun l => Char.ofNat (16 * hexVal h1 + hexVal h2) :: l)
      else none
    | _ => none
  | c :: rest =>
    if c.toNat < 0x80 && !(isHostByteAllowed c) then none
    else (unescapeHost rest).map (fun l => c :: l)

/-- Model of `net/url.parseHost`: bracket hosts need a closing `]`, an
optional `:digits` port may follow the last `]` (bracket case) or the
last `:` (plain case), then the whole host (port included) is validated
and percent-decoded. -/
def parseHostGo (host : List Char) : Option (List Char) :=
  match host with
  | '[' :: _ =>
    match afterLast ']' host with
    | none => none
    | some colonPort =>
      match colonPort with
      | [] => unescapeHost host
      | ':' :: ds => if ds.all Char.isDigit then unescapeHost host else none
      | _ => none
  | _ =>
    match afterLast ':' host with
    | none => unescapeHost host
    | some ds => if ds.all Char.isDigit then unescapeHost host else none

/-- Bytes allowed in userinfo (`net/url.validUserinfo`). -/
def isUserinfoChar (c : Char) : Bool :=
  c.isAlpha || c.isDigit ||
  ['-', '.', '_', ':', '~', '!', '$', '&', Char.ofNat 39, '(', ')', '*',
   '+', ',', ';', '=', '%', '@'].contains c

/-- Every `%` is followed by two hex digits (the escape well-formedness
check `net/url.unescape` performs in the non-host modes). -/
def validEscapes : List Char → Bool
  | [] => true
  | c :: rest =>
    if c = '%' then
      match rest with
      | h1 :: h2 :: rest2 => isHexChar h1 && isHexChar h2 && validEscapes rest2
      | _ => false
    else validEscapes rest

/-- Model of `net/url.parseAuthority`: the host is everything after the
last `@`; the userinfo before it must pass `validUserinfo` and escape
validation. -/
def parseAuthority (auth : List Char) : Option (List Char) :=
  match afterLast '@' auth with
  | none => parseHostGo auth
  | some hostPart =>
    match parseHostGo hostPart with
    | none => none
    | some h =>
      let userinfo := auth.take (auth.length - hostPart.length - 1)
      if userinfo.all isUserinfoChar && validEscapes userinfo then some h else none

/-- Model of `net/url.getScheme`: scans a leading `[a-zA-Z][a-zA-Z0-9+-.]*`
scheme terminated by `:`; `none` models the "missing protocol scheme"
error; an empty scheme with the whole input as remainder means "no
scheme". -/
def getSchemeAux (orig : List Char) : List Char → List Char → Option (List Char × List Char)
  | _, [] => some ([], orig)
  | acc, c :: rest =>
    if c.isAlpha then getSchemeAux orig (acc ++ [c]) rest
    else if c.isDigit || c = '+' || c = '-' || c = '.' then
      (if acc.isEmpty then some ([], orig) else getSchemeAux orig (acc ++ [c]) rest)
    else if c = ':' then
      (if acc.isEmpty then none else some (acc, rest))
    else some ([], orig)

/-- Scheme scan entry point. -/
def getScheme (l : List Char) : Option (List Char × List Char) := getSchemeAux l [] l

/-- Host extraction after the scheme has been removed, following
`net/url.parse`: cut the query, handle the opaque case, the
colon-in-first-path-segment error, the `//authority` case (with the
`///` exception when there is no scheme) and the path escape
validation. -/
def parseAfterScheme (hasScheme : Bool) (rest0 : List Char) : Option (List Char) :=
  let rest := cutAtChar '?' rest0
  if !(['/'].isPrefixOf rest) && hasScheme then some []
  else if !(['/'].isPrefixOf rest) && (rest.takeWhile (fun c => c ≠ '/')).contains ':' then none
  else if (hasScheme || !(['/', '/', '/'].isPrefixOf rest)) && ['/', '/'].isPrefixOf rest then
    let after := rest.drop 2
    let auth := after.takeWhile (fun c => c ≠ '/')
    let path := after.drop auth.length
    match parseAuthority auth with
    | none => none
    | some h => if validEscapes path then some h else none
  else if validEscapes rest then some [] else none

/-- Model of `url.Parse(s)` restricted to its `Host` field: `none` when
`Parse` returns an error, otherwise `some host`. -/
def goParseHost (s : List Char) : Option (List Char) :=
  let u := cutAtChar '#' s
  if u.any isCTL then none
  else if !(match afterFirstOpt '#' s with
            | none => true
            | some f => validEscapes f) then none
  else
    match getScheme u with
    | none => none
    | some (scheme, rest) => parseAfterScheme (!scheme.isEmpty) rest

/-- The `Host` of a URL string, or `none` on parse error. -/
def goURLHost (s : String) : Option String :=
  (goParseHost s.data).map (fun l => String.mk l)

/-- Model of `isSameDomain` (parser.go lines 14-21): parse both URLs and
compare the `Host` fields; any parse error makes the comparison false. -/
def isSameDomain (url1 url2 : String) : Bool :=
  match goURLHost url1, goURLHost url2 with
  | some h1, some h2 => h1 == h2
  | _, _ => false

/-! ## Fetching (`checker.go`) -/

/-- Outcome of one HTTP GET (`client.Get`), as the crawler observes it.
`failure` models a transport/network error; `response` carries the HTTP
status code and, for crawl tasks, what `extractLinks` yields on the
response body resolved against the fetched URL (`none` models an
extraction error, in which case `crawl` discards the links). -/
inductive Fetch where
  | failure (msg : String)
  | response (status : Nat) (links : Option (List String))
deriving Repr, DecidableEq

/-- Model of `checkURL` (checker.go lines 10-17): `(0, err)` on transport
failure, `(status, nil)` otherwise.  The body is never inspected. -/
def probeOutcome : Fetch → Option String × Nat
  | .failure msg => (some msg, 0)
  | .response status _ => (none, status)

/-- The `LinkResult` built from a `checkURL` call, as in `checkURLs`
(checker.go lines 29-37) and the external-link probe in `crawl`
(crawler.go lines 75-84): `IsBroken := err != nil || status >= 400`. -/
def mkCheckResult (web : String → Fetch) (link src : String) : LinkResult :=
  { URL := link
    Status := (probeOutcome (web link)).2
    Error := (probeOutcome (web link)).1
    IsBroken := (probeOutcome (web link)).1.isSome || decide (400 ≤ (probeOutcome (web link)).2)
    SourceURL := src }

/-- Model of `checkURLs` (checker.go lines 20-47): one independent fetch
per input element (duplicates included), no recursion, empty
`SourceURL`.  The concurrent tasks are serialized in input order; the
real completion order is a permutation of this list. -/
def checkURLs (web : String → Fetch) (urls : List String) : List LinkResult :=
  urls.map (fun u => mkCheckResult web u "")

/-! ## The crawler (`crawler.go`)

The concurrent recursion of `crawl` is serialized depth-first: the Go
mutexes make every `Visit` and every result append atomic, and every
spawned goroutine begins by atomically claiming its URL, so each
interleaving produces the same visited-set and the same result multiset;
this serialization is one canonical interleaving. -/

/-- The shared state reachable from every crawl task: the `SafeUrlMap`
and the mutex-protected result slice. -/
structure CrawlState where
  visited : SafeUrlMap
  results : List LinkResult
deriving Repr, DecidableEq

/-- The `for _, link := range links` loop of `crawl` (crawler.go lines
66-92): same-domain links recurse (via `recur`, the crawl task at
`depth+1`), other links are claimed in the dedup map and probed once
with `checkURL`, never followed. -/
def expandLinks (web : String → Fetch) (baseDomain : String)
    (recur : String → String → Nat → CrawlState → CrawlState)
    (pageURL : String) (depth : Nat) : List String → CrawlState → CrawlState
  | [], st => st
  | link :: rest, st =>
    let st1 :=
      if isSameDomain link baseDomain then
        recur link pageURL (depth + 1) st
      else
        match SafeUrlMap.Visit st.visited link with
        | (true, _) => st
        | (false, v) => { visited := v, results := st.results ++ [mkCheckResult web link pageURL] }
    expandLinks web baseDomain recur pageURL depth rest st1

/-- The body of one `crawl` task (crawler.go lines 11-94) with the
recursive spawn abstracted as `recur`: claim the URL in the dedup map
(terminate if already claimed), fetch, record the `LinkResult`, then
expand only if same-domain and `depth < maxDepth` and status `< 400`
and the page URL re-parses (`url.Parse` for link resolution) and link
extraction succeeded. -/
def crawlTask (web : String → Fetch) (baseDomain : String)
    (recur : String → String → Nat → CrawlState → CrawlState)
    (targetURL sourceURL : String) (depth : Nat) (st : CrawlState) : CrawlState :=
  match SafeUrlMap.Visit st.visited targetURL with
  | (true, _) => st
  | (false, v) =>
    let stv : CrawlState := { visited := v, results := st.results }
    match web targetURL with
    | .failure msg =>
      { stv with results := stv.results ++
          [{ URL := targetURL, Status := 0, Error := some msg,
             IsBroken := true, SourceURL := sourceURL }] }
    | .response status body =>
      let st1 : CrawlState := { stv with results := stv.results ++
          [{ URL := targetURL, Status := status, Error := none,
             IsBroken := decide (400 ≤ status), SourceURL := sourceURL }] }
      if isSameDomain targetURL baseDomain = false ∨ maxDepth ≤ depth ∨ 400 ≤ status then st1
      else if (goURLHost targetURL).isNone then st1
      else
        match body with
        | none => st1
        | some links => expandLinks web baseDomain recur targetURL depth links st1

/-- Model of `crawl` (crawler.go lines 11-94).  `fuel` only feeds the
recursion; since `crawl` recurses only when `depth < maxDepth` and each
recursion increments `depth`, fuel `maxDepth + 1` is never exhausted
from depth 0. -/
def crawlGo (web : String → Fetch) (baseDomain : String) :
    Nat → String → String → Nat → CrawlState → CrawlState
  | 0 => fun _ _ _ st => st
  | fuel + 1 => crawlTask web baseDomain (crawlGo web baseDomain fuel)

/-- A whole crawl run as `main.go` starts it (main.go lines 110-117):
base domain and start URL coincide, source URL is empty, depth 0, fresh
dedup map, empty result collection. -/
def crawl (web : String → Fetch) (startURL : String) : List LinkResult :=
  (crawlGo web startURL (maxDepth + 1) startURL "" 0
    { visited := { visited := [] }, results := [] }).results

/-! ## Markdown link extraction (`parser.go` lines 70-135)

The two Go regular expressions are translated into direct scanners with
the same semantics.  Both patterns are deterministic: every repeated
character class excludes the character that must follow it, so the
greedy leftmost-first match is the maximal run, and
`FindAllString(Submatch)Index` is the left-to-right non-overlapping
scan modelled by the fuel scanners below (each step consumes at least
one character, so fuel `length` suffices).  Positions are rune offsets;
Go uses byte offsets, but the two are related by a strictly monotone
map, so span containment and relative order — all the code uses
positions for — coincide. -/

/-- Whitespace trimmed by Go `strings.TrimSpace` (`unicode.IsSpace`),
restricted to Latin-1 (U+0085 and U+00A0 included; rarer Unicode space
code points elided). -/
def goIsSpace (c : Char) : Bool :=
  c = ' ' || c = '\t' || c = '\n' || c.toNat = 11 || c.toNat = 12 ||
  c = '\r' || c.toNat = 0x85 || c.toNat = 0xA0

/-- Model of `strings.TrimSpace` on char lists. -/
def goTrimChars (l : List Char) : List Char :=
  ((l.dropWhile goIsSpace).reverse.dropWhile goIsSpace).reverse

/-- The `strings.HasPrefix(link, "http://") || strings.HasPrefix(link,
"https://")` test of `extractMarkdownLinks`, on char lists. -/
def isHttpUrl (l : List Char) : Bool :=
  "http://".data.isPrefixOf l || "https://".data.isPrefixOf l

/-- One match attempt of the pattern from the literal Go regex for
Markdown links (open bracket, one or more non-close-bracket chars, close
bracket, open paren, one or more non-close-paren chars, close paren) at
the head of the input: returns the target group and the total match
length.  Both repetitions exclude their closing delimiter, so the match
is the unique maximal one. -/
def mdMatchAt (l : List Char) : Option (List Char × Nat) :=
  match l with
  | '[' :: rest =>
    let txt := rest.takeWhile (fun c => c ≠ ']')
    if txt.isEmpty then none
    else
      match rest.drop txt.length with
      | ']' :: '(' :: rest3 =>
        let tgt := rest3.takeWhile (fun c => c ≠ ')')
        if tgt.isEmpty then none
        else
          match rest3.drop tgt.length with
          | ')' :: _ => some (tgt, txt.length + tgt.length + 4)
          | _ => none
      | _ => none
  | _ => none

/-- A whole-pattern match: matched text or capture group, start offset,
end offset (exclusive), as in Go `FindAll...Index`. -/
structure ScanMatch where
  chars : List Char
  start : Nat
  stop : Nat
deriving Repr, DecidableEq

/-- Left-to-right non-overlapping scan for Markdown-link matches
(`markdownLinkRe.FindAllStringSubmatchIndex`), recorded with the target
group and the whole-match span. -/
def mdScanF : Nat → List Char → Nat → List ScanMatch
  | 0, _, _ => []
  | _ + 1, [], _ => []
  | fuel + 1, c :: rest, pos =>
    match mdMatchAt (c :: rest) with
    | some (tgt, len) =>
      { chars := tgt, start := pos, stop := pos + len } :: mdScanF fuel ((c :: rest).drop len) (pos + len)
    | none => mdScanF fuel rest (pos + 1)

/-- All Markdown-link matches of a document. -/
def mdScan (cs : List Char) : List ScanMatch := mdScanF cs.length cs 0

/-- Characters allowed in the repetition of the bare-URL regex: its
class excludes Perl whitespace (tab, newline, form feed, carriage
return, space) and the characters listed in the pattern (angle brackets,
double quote, braces, pipe, backslash, caret, square brackets, backtick,
parentheses). -/
def bareAllowed (c : Char) : Bool :=
  !(c = '\t' || c = '\n' || c.toNat = 12 || c = '\r' || c = ' ' ||
    c = '<' || c = '>' || c = '\"' || c.toNat = 123 || c.toNat = 125 ||
    c = '|' || c = '\\' || c = '^' || c = '[' || c = ']' ||
    c.toNat = 96 || c = '(' || c = ')')

/-- One match attempt of the bare-URL regex (`http`, optional `s`,
`://`, one or more allowed characters) at the head of the input:
returns the matched characters and their length. -/
def bareMatchAt (l : List Char) : Option (List Char × Nat) :=
  match l with
  | 'h' :: 't' :: 't' :: 'p' :: rest =>
    match rest with
    | 's' :: ':' :: '/' :: '/' :: r2 =>
      let run := r2.takeWhile bareAllowed
      if run.isEmpty then none
      else some ("https://".data ++ run, 8 + run.length)
    | ':' :: '/' :: '/' :: r2 =>
      let run := r2.takeWhile bareAllowed
      if run.isEmpty then none
      else some ("http://".data ++ run, 7 + run.length)
    | _ => none
  | _ => none

/-- Left-to-right non-overlapping scan for bare URLs
(`bareURLRe.FindAllStringIndex`). -/
def bareScanF : Nat → List Char → Nat → List ScanMatch
  | 0, _, _ => []
  | _ + 1, [], _ => []
  | fuel + 1, c :: rest, pos =>
    match bareMatchAt (c :: rest) with
    | some (u, len) =>
      { chars := u, start := pos, stop := pos + len } :: bareScanF fuel ((c :: rest).drop len) (pos + len)
    | none => bareScanF fuel rest (pos + 1)

/-- All bare-URL matches of a document. -/
def bareScan (cs : List Char) : List ScanMatch := bareScanF cs.length cs 0

/-- Markdown-link targets kept by `extractMarkdownLinks`: trimmed and
required to start with `http://` or `https://`, paired with the match
start offset. -/
def mdAccepted (cs : List Char) : List (String × Nat) :=
  (mdScan cs).filterMap (fun m =>
    let link := goTrimChars m.chars
    if isHttpUrl link then some (String.mk link, m.start) else none)

/-- Bare URLs kept by `extractMarkdownLinks`: those whose span does not
lie inside the span of ANY Markdown-link regex match (`skipRanges` is
built from every regex match, accepted or not), trimmed and paired with
their start offset. -/
def bareKept (cs : List Char) : List (String × Nat) :=
  (bareScan cs).filterMap (fun b =>
    if (mdScan cs).any (fun m => decide (m.start ≤ b.start) && decide (b.stop ≤ m.stop)) then none
    else some (String.mk (goTrimChars b.chars), b.start))

/-- Insertion into a position-sorted list. -/
def insertByPos (x : String × Nat) : List (String × Nat) → List (String × Nat)
  | [] => [x]
  | y :: ys => if x.2 < y.2 then x :: y :: ys else y :: insertByPos x ys

/-- Sorting by position.  The Go code uses an exchange sort; since all
positions here are pairwise distinct (a Markdown match starts with an
open bracket, a bare match with `h`, and matches of one scan are
non-overlapping), every comparison sort produces the same ascending
list, modelled by insertion sort. -/
def sortByPos : List (String × Nat) → List (String × Nat)
  | [] => []
  | x :: xs => insertByPos x (sortByPos xs)

/-- Duplicate removal keeping first occurrences (the `seen` map of
`extractMarkdownLinks`). -/
def dedupAux (seen : List String) : List String → List String
  | [] => []
  | x :: xs => if x ∈ seen then dedupAux seen xs else x :: dedupAux (x :: seen) xs

/-- Duplicate removal entry point. -/
def dedupKeepFirst (l : List String) : List String := dedupAux [] l

/-- Model of `extractMarkdownLinks` (parser.go lines 70-135). -/
def extractMarkdownLinks (content : String) : List String :=
  dedupKeepFirst ((sortByPos (mdAccepted content.data ++ bareKept content.data)).map Prod.fst)

/-! ## CLI entry point (`main.go`)

File reading is modelled by an oracle `fs : String → Option String`
(`none` models a read error).  Printing is irrelevant to the exit code
and elided; `outputJSON`'s encode error cannot occur for the values
produced here. -/

/-- `strings.TrimSpace` on strings. -/
def goTrimString (s : String) : String := String.mk (goTrimChars s.data)

/-- Model of `strings.HasPrefix`. -/
def strHasPrefix (s p : String) : Bool := p.data.isPrefixOf s.data

/-- Model of `strings.HasSuffix`. -/
def strHasSuffix (s p : String) : Bool := p.data.reverse.isPrefixOf s.data.reverse

/-- Newline splitting (`bufio.Scanner` with `ScanLines`). -/
def splitNewlines : List Char → List (List Char)
  | [] => [[]]
  | '\n' :: rest => [] :: splitNewlines rest
  | c :: rest =>
    match splitNewlines rest with
    | [] => [[c]]
    | l :: ls => (c :: l) :: ls

/-- Reading a `.txt` URL list (main.go lines 56-74): one URL per line,
trimmed; blank lines and lines starting with `#` are skipped.
(`bufio.ScanLines` splits at newlines and drops a trailing `\r`, which
the trim also does.) -/
def parseTxtLines (content : String) : List String :=
  ((splitNewlines content.data).map (fun l => String.mk (goTrimChars l))).filter
    (fun l => !(l == "") && !(strHasPrefix l "#"))

/-- Argument classification and URL resolution (main.go lines 42-92):
`.md` suffix → read and extract Markdown links, `.txt` suffix → read a
URL list, `http(s)://` prefix → literal URL, anything else → fatal
error; a failed file read is fatal.  `none` models `os.Exit(1)` before
any fetching. -/
def resolveArgs (fs : String → Option String) : List String → Option (List String)
  | [] => some []
  | a :: rest =>
    let this1 : Option (List String) :=
      if strHasSuffix a ".md" then (fs a).map extractMarkdownLinks
      else if strHasSuffix a ".txt" then (fs a).map parseTxtLines
      else if strHasPrefix a "http://" || strHasPrefix a "https://" then some [a]
      else none
    match this1 with
    | none => none
    | some us => (resolveArgs fs rest).map (fun rs => us ++ rs)

/-- Full input resolution: no arguments at all (usage message) and an
empty resolved URL list are also fatal (main.go lines 25-39 and
86-89). -/
def resolveInput (fs : String → Option String) (args : List String) : Option (List String) :=
  if args.isEmpty then none
  else match resolveArgs fs args with
    | none => none
    | some urls => if urls.isEmpty then none else some urls

/-- The Result Collection a run produces from a resolved URL list:
exactly one URL → crawl mode, otherwise direct check mode (main.go
lines 104-124). -/
def mainResults (web : String → Fetch) (urls : List String) : List LinkResult :=
  match urls with
  | [u] => crawl web u
  | _ => checkURLs web urls

/-- The broken-link count (main.go lines 127-132). -/
def brokenCount (results : List LinkResult) : Nat :=
  (results.filter (fun r => r.IsBroken)).length

/-- The process exit code (main.go lines 42-92 and 134-142): 1 on any
input-resolution failure, else 1 iff the broken count is positive,
else 0 (`main` returning normally). -/
def runMain (fs : String → Option String) (web : String → Fetch) (args : List String) : Nat :=
  match resolveInput fs args with
  | none => 1
  | some urls => if 0 < brokenCount (mainResults web urls) then 1 else 0

/-! # Theorems

First the claims about the Dedup Set.  Concurrency model: the Go mutex
serializes all `Visit` calls, so N concurrent claim attempts execute as
the N calls of some sequential trace; `runVisits` runs such a trace and
`falseClaims` counts the attempts on a given URL that observed "not yet
claimed". -/

/-- A serialized trace of `Visit` calls: the list of returned booleans
and the final map. -/
def runVisits (s : SafeUrlMap) : List String → List Bool × SafeUrlMap
  | [] => ([], s)
  | u :: us =>
    let p := SafeUrlMap.Visit s u
    let q := runVisits p.2 us
    (p.1 :: q.1, q.2)

/-- How many attempts on `u` in a trace observed "not yet claimed"
(returned `false`). -/
def falseClaims (u : String) : List String → List Bool → Nat
  | v :: vs, b :: bs => (if v = u ∧ b = false then 1 else 0) + falseClaims u vs bs
  | _, _ => 0

/-- Membership in the map after a `Visit`. -/
lemma Visit_mem_iff (s : SafeUrlMap) (u w : String) :
    w ∈ (SafeUrlMap.Visit s u).2.visited ↔ w ∈ s.visited ∨ w = u := by
  by_cases h : u ∈ s.visited
  · simp only [SafeUrlMap.Visit, if_pos h]
    constructor
    · exact Or.inl
    · rintro (hw | rfl)
      · exact hw
      · exact h
  · simp only [SafeUrlMap.Visit, if_neg h, List.mem_cons]
    exact or_comm

/-- A claimed URL stays claimed through any later trace. -/
lemma falseClaims_of_mem (u : String) :
    ∀ (us : List String) (s : SafeUrlMap), u ∈ s.visited →
      falseClaims u us (runVisits s us).1 = 0 := by
  intro us
  induction us with
  | nil => intro s _; rfl
  | cons v vs ih =>
    intro s h
    simp only [runVisits, falseClaims]
    rw [ih _ ((Visit_mem_iff s v u).2 (Or.inl h))]
    by_cases hv : v = u
    · subst hv
      simp [SafeUrlMap.Visit, h]
    · simp [hv]

/-- An unclaimed URL is claimed by exactly one attempt of a trace that
mentions it, and by none of a trace that does not. -/
lemma falseClaims_of_not_mem (u : String) :
    ∀ (us : List String) (s : SafeUrlMap), u ∉ s.visited →
      falseClaims u us (runVisits s us).1 = if u ∈ us then 1 else 0 := by
  intro us
  induction us with
  | nil => intro s _; simp [falseClaims, runVisits]
  | cons v vs ih =>
    intro s h
    by_cases hv : v = u
    · subst hv
      simp only [runVisits, falseClaims]
      have hfst : (SafeUrlMap.Visit s v) = (false, ⟨v :: s.visited⟩) := by
        simp [SafeUrlMap.Visit, h]
      rw [hfst]
      have : v ∈ (SafeUrlMap.mk (v :: s.visited)).visited := List.mem_cons_self _ _
      rw [falseClaims_of_mem v vs _ this]
      simp
    · have h2 : u ∉ (SafeUrlMap.Visit s v).2.visited := by
        rw [Visit_mem_iff]
        rintro (hw | rfl)
        · exact h hw
        · exact hv rfl
      simp only [runVisits, falseClaims]
      rw [ih _ h2]
      simp [hv, Ne.symm hv]

/-- Claim C1: `SafeUrlMap.Visit` is an atomic test-and-set: the first claim of
an unclaimed URL returns `false` (caller proceeds), every claim of a
claimed URL returns `true`, a claim is never undone (the map only
grows), and in any serialized trace of N concurrent claim attempts on
the same URL exactly one attempt observes "not yet claimed". -/
theorem claim_C1_dedup_atomic_test_and_set :
    (∀ (s : SafeUrlMap) (url : String), url ∉ s.visited → (SafeUrlMap.Visit s url).1 = false)
  ∧ (∀ (s : SafeUrlMap) (url : String), url ∈ s.visited → (SafeUrlMap.Visit s url).1 = true)
  ∧ (∀ (s : SafeUrlMap) (url : String), (SafeUrlMap.Visit (SafeUrlMap.Visit s url).2 url).1 = true)
  ∧ (∀ (s : SafeUrlMap) (url w : String), w ∈ s.visited → w ∈ (SafeUrlMap.Visit s url).2.visited)
  ∧ (∀ (s : SafeUrlMap) (url : String) (attempts : List String), url ∉ s.visited →
      falseClaims url attempts (runVisits s attempts).1 = if url ∈ attempts then 1 else 0) := by
  have hmem : ∀ (s : SafeUrlMap) (url : String), url ∈ s.visited →
      (SafeUrlMap.Visit s url).1 = true := by
    intro s url h; simp [SafeUrlMap.Visit, h]
  refine ⟨?_, hmem, ?_, ?_, ?_⟩
  · intro s url h; simp [SafeUrlMap.Visit, h]
  · intro s url
    exact hmem _ _ ((Visit_mem_iff s url url).2 (Or.inr rfl))
  · intro s url w h; exact (Visit_mem_iff s url w).2 (Or.inl h)
  · intro s url attempts h; exact falseClaims_of_not_mem url attempts s h

/-- Witness for C1 at a concrete map and trace. -/
theorem claim_C1_dedup_atomic_test_and_set_witness :
    (SafeUrlMap.Visit ⟨[]⟩ "http://x.com/").1 = false ∧
    falseClaims "http://x.com/" ["http://x.com/", "http://x.com/", "http://x.com/"]
      (runVisits ⟨[]⟩ ["http://x.com/", "http://x.com/", "http://x.com/"]).1 =
      if "http://x.com/" ∈ ["http://x.com/", "http://x.com/", "http://x.com/"] then 1 else 0 :=
  ⟨claim_C1_dedup_atomic_test_and_set.1 ⟨[]⟩ _ (by simp),
   claim_C1_dedup_atomic_test_and_set.2.2.2.2 ⟨[]⟩ _ _ (by simp)⟩

/-! ## The shape of recorded results (claims C2, C3) -/

/-- Every `LinkResult` the code ever appends has one of two shapes:
a transport failure (error set, status 0, broken) or an HTTP response
(error unset, broken exactly when the status is ≥ 400). -/
def ResultShape (r : LinkResult) : Prop :=
  (∃ m, r.Error = some m ∧ r.Status = 0 ∧ r.IsBroken = true) ∨
  (r.Error = none ∧ r.IsBroken = decide (400 ≤ r.Status))

/-- Results built from `checkURL` have the invariant shape. -/
lemma mkCheckResult_shape (web : String → Fetch) (link src : String) :
    ResultShape (mkCheckResult web link src) := by
  cases hw : web link with
  | failure msg =>
    exact Or.inl ⟨msg, by simp [mkCheckResult, probeOutcome, hw],
      by simp [mkCheckResult, probeOutcome, hw], by simp [mkCheckResult, probeOutcome, hw]⟩
  | response status body =>
    exact Or.inr ⟨by simp [mkCheckResult, probeOutcome, hw],
      by simp [mkCheckResult, probeOutcome, hw]⟩

/-- All results of a crawl state have the invariant shape. -/
def StShape (st : CrawlState) : Prop := ∀ r ∈ st.results, ResultShape r

/-- The link loop preserves the shape invariant if the recursive task
does. -/
lemma expandLinks_shape (web : String → Fetch) (bd : String)
    (recur : String → String → Nat → CrawlState → CrawlState)
    (hrec : ∀ t s d st, StShape st → StShape (recur t s d st))
    (p : String) (d : Nat) :
    ∀ (ls : List String) (st : CrawlState), StShape st →
      StShape (expandLinks web bd recur p d ls st) := by
  intro ls
  induction ls with
  | nil => intro st h; exact h
  | cons link rest ih =>
    intro st h
    rw [expandLinks]
    apply ih
    by_cases hsd : isSameDomain link bd
    · rw [if_pos hsd]; exact hrec _ _ _ _ h
    · rw [if_neg hsd]
      by_cases hm : link ∈ st.visited.visited
      · simp only [SafeUrlMap.Visit, if_pos hm]
        exact h
      · simp only [SafeUrlMap.Visit, if_neg hm]
        intro r hr
        rcases List.mem_append.1 hr with h1 | h2
        · exact h r h1
        · rw [List.mem_singleton.1 h2]
          exact mkCheckResult_shape web link p

/-- One crawl task preserves the shape invariant if its recursive spawn
does. -/
lemma crawlTask_shape (web : String → Fetch) (bd : String)
    (recur : String → String → Nat → CrawlState → CrawlState)
    (hrec : ∀ t s d st, StShape st → StShape (recur t s d st)) :
    ∀ t s d st, StShape st → StShape (crawlTask web bd recur t s d st) := by
  intro t s d st h
  rw [crawlTask]
  by_cases hm : t ∈ st.visited.visited
  · simp only [SafeUrlMap.Visit, if_pos hm]
    exact h
  · simp only [SafeUrlMap.Visit, if_neg hm]
    cases hw : web t with
    | failure msg =>
      intro r hr
      rcases List.mem_append.1 hr with h1 | h2
      · exact h r h1
      · rw [List.mem_singleton.1 h2]
        exact Or.inl ⟨msg, rfl, rfl, rfl⟩
    | response status body =>
      dsimp only
      have hst1 : StShape (CrawlState.mk ⟨t :: st.visited.visited⟩
          (st.results ++ [LinkResult.mk t status none (decide (400 ≤ status)) s])) := by
        intro r hr
        rcases List.mem_append.1 hr with h1 | h2
        · exact h r h1
        · rw [List.mem_singleton.1 h2]
          exact Or.inr ⟨rfl, rfl⟩
      split
      · exact hst1
      · split
        · exact hst1
        · cases body with
          | none => exact hst1
          | some links => exact expandLinks_shape web bd recur hrec t d links _ hst1

/-- The whole recursion preserves the shape invariant. -/
lemma crawlGo_shape (web : String → Fetch) (bd : String) :
    ∀ fuel t s d st, StShape st → StShape (crawlGo web bd fuel t s d st) := by
  intro fuel
  induction fuel with
  | zero => intro t s d st h; exact h
  | succ n ih => exact crawlTask_shape web bd _ ih

/-- Every result of a crawl run has the invariant shape. -/
lemma crawl_shape (web : String → Fetch) (u : String) :
    ∀ r ∈ crawl web u, ResultShape r :=
  crawlGo_shape web u (maxDepth + 1) u "" 0 _ (by intro r hr; cases hr)

/-- Every result of the batch checker has the invariant shape. -/
lemma checkURLs_shape (web : String → Fetch) (urls : List String) :
    ∀ r ∈ checkURLs web urls, ResultShape r := by
  intro r hr
  rcases List.mem_map.1 hr with ⟨u, _, rfl⟩
  exact mkCheckResult_shape web u ""

/-- The link loop only appends results. -/
lemma expandLinks_results_extend (web : String → Fetch) (bd : String)
    (recur : String → String → Nat → CrawlState → CrawlState)
    (hrec : ∀ t s d st, ∃ tl, (recur t s d st).results = st.results ++ tl)
    (p : String) (d : Nat) :
    ∀ (ls : List String) (st : CrawlState),
      ∃ tl, (expandLinks web bd recur p d ls st).results = st.results ++ tl := by
  intro ls
  induction ls with
  | nil => intro st; exact ⟨[], by simp [expandLinks]⟩
  | cons link rest ih =>
    intro st
    rw [expandLinks]
    by_cases hsd : isSameDomain link bd
    · rw [if_pos hsd]
      obtain ⟨t1, ht1⟩ := hrec link p (d + 1) st
      obtain ⟨t2, ht2⟩ := ih (recur link p (d + 1) st)
      exact ⟨t1 ++ t2, by rw [ht2, ht1, List.append_assoc]⟩
    · rw [if_neg hsd]
      by_cases hm : link ∈ st.visited.visited
      · simp only [SafeUrlMap.Visit, if_pos hm]
        exact ih st
      · simp only [SafeUrlMap.Visit, if_neg hm]
        obtain ⟨t2, ht2⟩ := ih (CrawlState.mk ⟨link :: st.visited.visited⟩
          (st.results ++ [mkCheckResult web link p]))
        exact ⟨mkCheckResult web link p :: t2, by rw [ht2]; simp⟩

/-- One crawl task only appends results. -/
lemma crawlTask_results_extend (web : String → Fetch) (bd : String)
    (recur : String → String → Nat → CrawlState → CrawlState)
    (hrec : ∀ t s d st, ∃ tl, (recur t s d st).results = st.results ++ tl) :
    ∀ t s d st, ∃ tl, (crawlTask web bd recur t s d st).results = st.results ++ tl := by
  intro t s d st
  rw [crawlTask]
  by_cases hm : t ∈ st.visited.visited
  · simp only [SafeUrlMap.Visit, if_pos hm]
    exact ⟨[], by simp⟩
  · simp only [SafeUrlMap.Visit, if_neg hm]
    cases hw : web t with
    | failure msg => exact ⟨_, rfl⟩
    | response status body =>
      dsimp only
      split
      · exact ⟨_, rfl⟩
      · split
        · exact ⟨_, rfl⟩
        · cases body with
          | none => exact ⟨_, rfl⟩
          | some links =>
            obtain ⟨t2, ht2⟩ := expandLinks_results_extend web bd recur hrec t d links
              (CrawlState.mk ⟨t :: st.visited.visited⟩
                (st.results ++ [LinkResult.mk t status none (decide (400 ≤ status)) s]))
            exact ⟨LinkResult.mk t status none (decide (400 ≤ status)) s :: t2,
              by rw [ht2]; simp⟩

/-- The whole recursion only appends results. -/
lemma crawlGo_results_extend (web : String → Fetch) (bd : String) :
    ∀ fuel t s d st, ∃ tl, (crawlGo web bd fuel t s d st).results = st.results ++ tl := by
  intro fuel
  induction fuel with
  | zero => intro t s d st; exact ⟨[], by simp [crawlGo]⟩
  | succ n ih => exact crawlTask_results_extend web bd _ ih

/-- A task on an unclaimed URL always records a result. -/
lemma crawlTask_fresh_grows (web : String → Fetch) (bd : String)
    (recur : String → String → Nat → CrawlState → CrawlState)
    (hrec : ∀ t s d st, ∃ tl, (recur t s d st).results = st.results ++ tl) :
    ∀ t s d st, t ∉ st.visited.visited →
      st.results.length < (crawlTask web bd recur t s d st).results.length := by
  intro t s d st hm
  rw [crawlTask]
  simp only [SafeUrlMap.Visit, if_neg hm]
  cases hw : web t with
  | failure msg => simp
  | response status body =>
    dsimp only
    split
    · simp
    · split
      · simp
      · cases body with
        | none => simp
        | some links =>
          obtain ⟨t2, ht2⟩ := expandLinks_results_extend web bd recur hrec t d links
            (CrawlState.mk ⟨t :: st.visited.visited⟩
              (st.results ++ [LinkResult.mk t status none (decide (400 ≤ status)) s]))
          rw [ht2]
          simp

/-- A crawl run always reports at least its start URL: per-link failures
never abort the run. -/
lemma crawl_ne_nil (web : String → Fetch) (u : String) : crawl web u ≠ [] := by
  have h := crawlTask_fresh_grows web u (crawlGo web u maxDepth)
    (crawlGo_results_extend web u maxDepth) u "" 0
    (CrawlState.mk ⟨[]⟩ []) (by simp)
  intro hc
  have he : crawl web u =
      (crawlTask web u (crawlGo web u maxDepth) u "" 0 (CrawlState.mk ⟨[]⟩ [])).results := rfl
  rw [he] at hc
  rw [hc] at h
  simp at h

/-- Claim C2: for every LinkResult ever appended to the Result Collection —
by the recursive crawl (including its external-link probes) or by the
batch checker — `IsBroken` equals `(Error is present) OR
(Status >= 400)`, with no exceptions. -/
theorem claim_C2_isbroken_invariant :
    ∀ (web : String → Fetch) (startURL : String) (urls : List String),
      ((crawl web startURL).all
        (fun r => r.IsBroken == (r.Error.isSome || decide (400 ≤ r.Status)))) = true
    ∧ ((checkURLs web urls).all
        (fun r => r.IsBroken == (r.Error.isSome || decide (400 ≤ r.Status)))) = true := by
  have key : ∀ r, ResultShape r →
      (r.IsBroken == (r.Error.isSome || decide (400 ≤ r.Status))) = true := by
    intro r hr
    rcases hr with ⟨m, he, hs, hb⟩ | ⟨he, hb⟩
    · rw [he, hb, hs]; rfl
    · rw [he, hb]; simp
  intro web startURL urls
  constructor
  · rw [List.all_eq_true]
    intro r hr
    exact key r (crawl_shape web startURL r hr)
  · rw [List.all_eq_true]
    intro r hr
    exact key r (checkURLs_shape web urls r hr)

/-- Claim C3: every fetch outcome is recorded in exactly one of two shapes —
transport failure: `Error` set, `Status = 0`, `IsBroken = true`;
HTTP response: `Error` unset, `Status` the code, `IsBroken = true` iff
the code is ≥ 400 — and neither class aborts the run (the batch checker
still returns one result per input and a crawl always reports its
root). -/
theorem claim_C3_error_taxonomy :
    ∀ (web : String → Fetch) (startURL : String) (urls : List String),
      ((crawl web startURL).all
        (fun r => (r.Error.isSome && (r.Status == 0 && r.IsBroken)) ||
                  (r.Error.isNone && (r.IsBroken == decide (400 ≤ r.Status))))) = true
    ∧ ((checkURLs web urls).all
        (fun r => (r.Error.isSome && (r.Status == 0 && r.IsBroken)) ||
                  (r.Error.isNone && (r.IsBroken == decide (400 ≤ r.Status))))) = true
    ∧ (checkURLs web urls).length = urls.length
    ∧ 0 < (crawl web startURL).length := by
  have key : ∀ r, ResultShape r →
      ((r.Error.isSome && (r.Status == 0 && r.IsBroken)) ||
       (r.Error.isNone && (r.IsBroken == decide (400 ≤ r.Status)))) = true := by
    intro r hr
    rcases hr with ⟨m, he, hs, hb⟩ | ⟨he, hb⟩
    · rw [he, hb, hs]; rfl
    · rw [he, hb]; simp
  intro web startURL urls
  refine ⟨?_, ?_, ?_, List.length_pos.2 (crawl_ne_nil web startURL)⟩
  · rw [List.all_eq_true]
    intro r hr
    exact key r (crawl_shape web startURL r hr)
  · rw [List.all_eq_true]
    intro r hr
    exact key r (checkURLs_shape web urls r hr)
  · exact List.length_map urls _

/-- Claim C7: the batch checker fetches each input element exactly once — the
results are in bijection with the input list, duplicates included, with
no deduplication — every result has an empty `SourceURL`, and no
recursion happens: response bodies never influence the output (two webs
with the same `checkURL` outcomes give identical results). -/
theorem claim_C7_batch_checker :
    ∀ (web web' : String → Fetch) (urls : List String),
      (∀ u, probeOutcome (web u) = probeOutcome (web' u)) →
      (checkURLs web urls).map LinkResult.URL = urls
      ∧ (checkURLs web urls).length = urls.length
      ∧ ((checkURLs web urls).all (fun r => r.SourceURL == "")) = true
      ∧ checkURLs web urls = checkURLs web' urls := by
  intro web web' urls hpo
  refine ⟨?_, List.length_map urls _, ?_, ?_⟩
  · rw [checkURLs, List.map_map]
    have h : (LinkResult.URL ∘ fun u => mkCheckResult web u "") = id := rfl
    rw [h, List.map_id]
  · rw [List.all_eq_true]
    intro r hr
    rcases List.mem_map.1 hr with ⟨u, _, rfl⟩
    rfl
  · rw [checkURLs, checkURLs]
    refine List.map_congr_left ?_
    intro u _
    rw [mkCheckResult, mkCheckResult, hpo u]

/-- Witness for C7 on a concrete duplicate-bearing input. -/
theorem claim_C7_batch_checker_witness :
    (checkURLs (fun _ => Fetch.response 200 none) ["http://a.com/", "http://a.com/"]).map
        LinkResult.URL = ["http://a.com/", "http://a.com/"]
    ∧ (checkURLs (fun _ => Fetch.response 200 none) ["http://a.com/", "http://a.com/"]).length
        = (["http://a.com/", "http://a.com/"] : List String).length
    ∧ ((checkURLs (fun _ => Fetch.response 200 none) ["http://a.com/", "http://a.com/"]).all
        (fun r => r.SourceURL == "")) = true
    ∧ checkURLs (fun _ => Fetch.response 200 none) ["http://a.com/", "http://a.com/"]
        = checkURLs (fun _ => Fetch.response 200 (some ["http://b.com/"]))
            ["http://a.com/", "http://a.com/"] :=
  claim_C7_batch_checker (fun _ => Fetch.response 200 none)
    (fun _ => Fetch.response 200 (some ["http://b.com/"]))
    ["http://a.com/", "http://a.com/"] (fun _ => rfl)

/-! ## Expansion policy and at-most-once fetching (claim C5) -/

/-- Invariant for the at-most-once-fetch property: recorded URLs are
pairwise distinct, and every recorded URL has been claimed in the dedup
map. -/
def UrlsOnce (st : CrawlState) : Prop :=
  (st.results.map LinkResult.URL).Nodup ∧ ∀ r ∈ st.results, r.URL ∈ st.visited.visited

/-- Appending a result for a freshly claimed URL preserves the
invariant. -/
lemma UrlsOnce_append (st : CrawlState) (u : String) (r : LinkResult)
    (hurl : r.URL = u) (hm : u ∉ st.visited.visited) (h : UrlsOnce st) :
    UrlsOnce (CrawlState.mk ⟨u :: st.visited.visited⟩ (st.results ++ [r])) := by
  obtain ⟨hnd, hmem⟩ := h
  constructor
  · rw [List.map_append]
    rw [List.nodup_append]
    refine ⟨hnd, by simp, ?_⟩
    intro a ha
    simp only [List.map_cons, List.map_nil, List.mem_singleton, hurl]
    intro hau
    rw [hau] at ha
    rcases List.mem_map.1 ha with ⟨x, hx, hxu⟩
    exact hm (hxu ▸ hmem x hx)
  · intro x hx
    rcases List.mem_append.1 hx with h1 | h2
    · exact List.mem_cons_of_mem _ (hmem x h1)
    · rw [List.mem_singleton.1 h2, hurl]
      exact List.mem_cons_self _ _

/-- The link loop preserves the at-most-once invariant. -/
lemma expandLinks_once (web : String → Fetch) (bd : String)
    (recur : String → String → Nat → CrawlState → CrawlState)
    (hrec : ∀ t s d st, UrlsOnce st → UrlsOnce (recur t s d st))
    (p : String) (d : Nat) :
    ∀ (ls : List String) (st : CrawlState), UrlsOnce st →
      UrlsOnce (expandLinks web bd recur p d ls st) := by
  intro ls
  induction ls with
  | nil => intro st h; exact h
  | cons link rest ih =>
    intro st h
    rw [expandLinks]
    apply ih
    by_cases hsd : isSameDomain link bd
    · rw [if_pos hsd]; exact hrec _ _ _ _ h
    · rw [if_neg hsd]
      by_cases hm : link ∈ st.visited.visited
      · simp only [SafeUrlMap.Visit, if_pos hm]
        exact h
      · simp only [SafeUrlMap.Visit, if_neg hm]
        exact UrlsOnce_append st link _ rfl hm h

/-- One task preserves the at-most-once invariant. -/
lemma crawlTask_once (web : String → Fetch) (bd : String)
    (recur : String → String → Nat → CrawlState → CrawlState)
    (hrec : ∀ t s d st, UrlsOnce st → UrlsOnce (recur t s d st)) :
    ∀ t s d st, UrlsOnce st → UrlsOnce (crawlTask web bd recur t s d st) := by
  intro t s d st h
  rw [crawlTask]
  by_cases hm : t ∈ st.visited.visited
  · simp only [SafeUrlMap.Visit, if_pos hm]
    exact h
  · simp only [SafeUrlMap.Visit, if_neg hm]
    cases hw : web t with
    | failure msg => exact UrlsOnce_append st t _ rfl hm h
    | response status body =>
      dsimp only
      have hst1 : UrlsOnce (CrawlState.mk ⟨t :: st.visited.visited⟩
          (st.results ++ [LinkResult.mk t status none (decide (400 ≤ status)) s])) :=
        UrlsOnce_append st t _ rfl hm h
      split
      · exact hst1
      · split
        · exact hst1
        · cases body with
          | none => exact hst1
          | some links => exact expandLinks_once web bd recur hrec t d links _ hst1

/-- The whole recursion preserves the at-most-once invariant. -/
lemma crawlGo_once (web : String → Fetch) (bd : String) :
    ∀ fuel t s d st, UrlsOnce st → UrlsOnce (crawlGo web bd fuel t s d st) := by
  intro fuel
  induction fuel with
  | zero => intro t s d st h; exact h
  | succ n ih => exact crawlTask_once web bd _ ih

/-- In a whole crawl run no URL is ever fetched twice. -/
lemma crawl_urls_nodup (web : String → Fetch) (u : String) :
    ((crawl web u).map LinkResult.URL).Nodup :=
  (crawlGo_once web u (maxDepth + 1) u "" 0 (CrawlState.mk ⟨[]⟩ [])
    ⟨List.nodup_nil, by intro r hr; cases hr⟩).1

/-- A task whose page answers with status ≥ 400 records that result and
stops: no expansion, whatever the body contains. -/
lemma crawlTask_stop_broken (web : String → Fetch) (bd : String)
    (recur : String → String → Nat → CrawlState → CrawlState)
    (t s : String) (d : Nat) (st : CrawlState) (status : Nat) (body : Option (List String))
    (hm : t ∉ st.visited.visited) (hw : web t = Fetch.response status body)
    (hs : 400 ≤ status) :
    crawlTask web bd recur t s d st =
      CrawlState.mk ⟨t :: st.visited.visited⟩
        (st.results ++ [LinkResult.mk t status none true s]) := by
  rw [crawlTask]
  simp only [SafeUrlMap.Visit, if_neg hm, hw]
  rw [if_pos (Or.inr (Or.inr hs)), decide_eq_true hs]

/-- A task on a page whose domain differs from the root domain records
that result and stops: no expansion. -/
lemma crawlTask_stop_cross (web : String → Fetch) (bd : String)
    (recur : String → String → Nat → CrawlState → CrawlState)
    (t s : String) (d : Nat) (st : CrawlState) (status : Nat) (body : Option (List String))
    (hm : t ∉ st.visited.visited) (hw : web t = Fetch.response status body)
    (hsd : isSameDomain t bd = false) :
    crawlTask web bd recur t s d st =
      CrawlState.mk ⟨t :: st.visited.visited⟩
        (st.results ++ [LinkResult.mk t status none (decide (400 ≤ status)) s]) := by
  rw [crawlTask]
  simp only [SafeUrlMap.Visit, if_neg hm, hw]
  rw [if_pos (Or.inl hsd)]

/-- A task whose fetch fails records the transport error and stops. -/
lemma crawlTask_stop_failure (web : String → Fetch) (bd : String)
    (recur : String → String → Nat → CrawlState → CrawlState)
    (t s : String) (d : Nat) (st : CrawlState) (msg : String)
    (hm : t ∉ st.visited.visited) (hw : web t = Fetch.failure msg) :
    crawlTask web bd recur t s d st =
      CrawlState.mk ⟨t :: st.visited.visited⟩
        (st.results ++ [LinkResult.mk t 0 (some msg) true s]) := by
  rw [crawlTask]
  simp only [SafeUrlMap.Visit, if_neg hm, hw]

/-- The link loop only looks at non-same-domain pages through
`checkURL`: two webs with the same probe outcomes, and identical on
same-domain URLs, drive it identically. -/
lemma expandLinks_congr (web web' : String → Fetch) (bd : String)
    (recur recur' : String → String → Nat → CrawlState → CrawlState)
    (hpo : ∀ u, probeOutcome (web u) = probeOutcome (web' u))
    (hrec : ∀ t s d st, recur t s d st = recur' t s d st)
    (p : String) (d : Nat) :
    ∀ (ls : List String) (st : CrawlState),
      expandLinks web bd recur p d ls st = expandLinks web' bd recur' p d ls st := by
  intro ls
  induction ls with
  | nil => intro st; rfl
  | cons link rest ih =>
    intro st
    rw [expandLinks, expandLinks]
    by_cases hsd : isSameDomain link bd
    · rw [if_pos hsd, if_pos hsd, hrec link p (d + 1) st]
      exact ih _
    · rw [if_neg hsd, if_neg hsd]
      by_cases hm : link ∈ st.visited.visited
      · simp only [SafeUrlMap.Visit, if_pos hm]
        exact ih st
      · simp only [SafeUrlMap.Visit, if_neg hm]
        have hmk : mkCheckResult web link p = mkCheckResult web' link p := by
          rw [mkCheckResult, mkCheckResult, hpo link]
        rw [hmk]
        exact ih _

/-- One task never reads the body of a non-same-domain page: webs that
agree on probe outcomes everywhere and agree fully on same-domain URLs
produce identical tasks. -/
lemma crawlTask_congr (web web' : String → Fetch) (bd : String)
    (recur recur' : String → String → Nat → CrawlState → CrawlState)
    (hpo : ∀ u, probeOutcome (web u) = probeOutcome (web' u))
    (hsame : ∀ u, isSameDomain u bd = true → web u = web' u)
    (hrec : ∀ t s d st, recur t s d st = recur' t s d st) :
    ∀ t s d st, crawlTask web bd recur t s d st = crawlTask web' bd recur' t s d st := by
  intro t s d st
  rw [crawlTask, crawlTask]
  by_cases hm : t ∈ st.visited.visited
  · simp only [SafeUrlMap.Visit, if_pos hm]
  · simp only [SafeUrlMap.Visit, if_neg hm]
    by_cases hsd : isSameDomain t bd = true
    · rw [← hsame t hsd]
      cases hw : web t with
      | failure msg => rfl
      | response status body =>
        dsimp only
        split
        · rfl
        · split
          · rfl
          · cases body with
            | none => rfl
            | some links => exact expandLinks_congr web web' bd recur recur' hpo hrec t d links _
    · have hsdf : isSameDomain t bd = false := by
        simpa using hsd
      have hpot := hpo t
      cases hw : web t with
      | failure msg =>
        cases hw' : web' t with
        | failure msg' =>
          rw [hw, hw'] at hpot
          simp only [probeOutcome, Prod.mk.injEq, Option.some.injEq] at hpot
          rw [hpot.1]
        | response status' body' =>
          rw [hw, hw'] at hpot
          simp [probeOutcome] at hpot
      | response status body =>
        cases hw' : web' t with
        | failure msg' =>
          rw [hw, hw'] at hpot
          simp [probeOutcome] at hpot
        | response status' body' =>
          rw [hw, hw'] at hpot
          simp only [probeOutcome, Prod.mk.injEq] at hpot
          dsimp only
          rw [hpot.2]
          rw [if_pos (Or.inl hsdf), if_pos (Or.inl hsdf)]

/-- The whole recursion never reads the body of a non-same-domain
page. -/
lemma crawlGo_congr (web web' : String → Fetch) (bd : String)
    (hpo : ∀ u, probeOutcome (web u) = probeOutcome (web' u))
    (hsame : ∀ u, isSameDomain u bd = true → web u = web' u) :
    ∀ fuel t s d st, crawlGo web bd fuel t s d st = crawlGo web' bd fuel t s d st := by
  intro fuel
  induction fuel with
  | zero => intro t s d st; rfl
  | succ n ih => exact crawlTask_congr web web' bd _ _ hpo hsame ih

/-- Claim C5: a task records its page's result but expands only when the
fetch succeeded with status < 400 on a same-domain page — a broken
(≥ 400), cross-domain or failed page contributes exactly its own result
and nothing else; link bodies of non-same-domain pages never influence
the crawl (cross-domain links are one-shot probes whose own links are
never fetched); and every URL, cross-domain probes included, is claimed
in the dedup map and fetched at most once. -/
theorem claim_C5_expansion_policy :
    (∀ (web : String → Fetch) (bd : String) (fuel : Nat) (t s : String) (d : Nat)
        (st : CrawlState) (status : Nat) (body : Option (List String)),
      t ∉ st.visited.visited → web t = Fetch.response status body → 400 ≤ status →
      crawlGo web bd (fuel + 1) t s d st =
        CrawlState.mk ⟨t :: st.visited.visited⟩
          (st.results ++ [LinkResult.mk t status none true s]))
  ∧ (∀ (web : String → Fetch) (bd : String) (fuel : Nat) (t s : String) (d : Nat)
        (st : CrawlState) (status : Nat) (body : Option (List String)),
      t ∉ st.visited.visited → web t = Fetch.response status body →
      isSameDomain t bd = false →
      crawlGo web bd (fuel + 1) t s d st =
        CrawlState.mk ⟨t :: st.visited.visited⟩
          (st.results ++ [LinkResult.mk t status none (decide (400 ≤ status)) s]))
  ∧ (∀ (web : String → Fetch) (bd : String) (fuel : Nat) (t s : String) (d : Nat)
        (st : CrawlState) (msg : String),
      t ∉ st.visited.visited → web t = Fetch.failure msg →
      crawlGo web bd (fuel + 1) t s d st =
        CrawlState.mk ⟨t :: st.visited.visited⟩
          (st.results ++ [LinkResult.mk t 0 (some msg) true s]))
  ∧ (∀ (web web' : String → Fetch) (bd : String),
      (∀ u, probeOutcome (web u) = probeOutcome (web' u)) →
      (∀ u, isSameDomain u bd = true → web u = web' u) →
      ∀ fuel t s d st, crawlGo web bd fuel t s d st = crawlGo web' bd fuel t s d st)
  ∧ (∀ (web : String → Fetch) (u : String), ((crawl web u).map LinkResult.URL).Nodup) := by
  refine ⟨?_, ?_, ?_, ?_, crawl_urls_nodup⟩
  · intro web bd fuel t s d st status body hm hw hs
    exact crawlTask_stop_broken web bd (crawlGo web bd fuel) t s d st status body hm hw hs
  · intro web bd fuel t s d st status body hm hw hsd
    exact crawlTask_stop_cross web bd (crawlGo web bd fuel) t s d st status body hm hw hsd
  · intro web bd fuel t s d st msg hm hw
    exact crawlTask_stop_failure web bd (crawlGo web bd fuel) t s d st msg hm hw
  · exact crawlGo_congr

/-- A web whose cross-domain page `http://ext.org/` has one body… -/
def webProbeA : String → Fetch := fun u =>
  if u = "http://ext.org/" then Fetch.response 200 (some ["http://a.com/p"])
  else Fetch.response 200 (some [])

/-- …and the same web with a different body on that cross-domain page. -/
def webProbeB : String → Fetch := fun u =>
  if u = "http://ext.org/" then Fetch.response 200 (some ["http://a.com/q", "http://a.com/r"])
  else Fetch.response 200 (some [])

/-- Witness for C5 at concrete webs, pages and states. -/
theorem claim_C5_expansion_policy_witness :
    crawlGo (fun _ => Fetch.response 404 (some ["http://a.com/x"])) "http://a.com/"
        (0 + 1) "http://a.com/" "" 0 (CrawlState.mk ⟨[]⟩ []) =
      CrawlState.mk ⟨["http://a.com/"]⟩
        [LinkResult.mk "http://a.com/" 404 none true ""]
    ∧ crawlGo (fun _ => Fetch.response 200 (some ["http://a.com/x"])) "http://a.com/"
        (0 + 1) "http://ext.org/" "http://a.com/" 1 (CrawlState.mk ⟨[]⟩ []) =
      CrawlState.mk ⟨["http://ext.org/"]⟩
        [LinkResult.mk "http://ext.org/" 200 none (decide (400 ≤ 200)) "http://a.com/"]
    ∧ crawlGo (fun _ => Fetch.failure "connection refused") "http://a.com/"
        (0 + 1) "http://a.com/" "" 0 (CrawlState.mk ⟨[]⟩ []) =
      CrawlState.mk ⟨["http://a.com/"]⟩
        [LinkResult.mk "http://a.com/" 0 (some "connection refused") true ""]
    ∧ crawlGo webProbeA "http://a.com/" 3 "http://a.com/" "" 0 (CrawlState.mk ⟨[]⟩ []) =
      crawlGo webProbeB "http://a.com/" 3 "http://a.com/" "" 0 (CrawlState.mk ⟨[]⟩ [])
    ∧ ((crawl webProbeA "http://a.com/").map LinkResult.URL).Nodup := by
  have hpo : ∀ u, probeOutcome (webProbeA u) = probeOutcome (webProbeB u) := by
    intro u
    rw [webProbeA, webProbeB]
    by_cases h : u = "http://ext.org/"
    · rw [if_pos h, if_pos h]; rfl
    · rw [if_neg h, if_neg h]
  have hsame : ∀ u, isSameDomain u "http://a.com/" = true → webProbeA u = webProbeB u := by
    intro u h
    by_cases he : u = "http://ext.org/"
    · subst he
      exact absurd h (by decide)
    · rw [webProbeA, webProbeB, if_neg he, if_neg he]
  refine ⟨?_, ?_, ?_, ?_, claim_C5_expansion_policy.2.2.2.2 webProbeA "http://a.com/"⟩
  · exact claim_C5_expansion_policy.1 _ _ 0 _ _ 0 _ 404 (some ["http://a.com/x"])
      (by simp) rfl (by omega)
  · exact claim_C5_expansion_policy.2.1 _ _ 0 _ _ 1 _ 200 (some ["http://a.com/x"])
      (by simp) rfl (by decide)
  · exact claim_C5_expansion_policy.2.2.1 _ _ 0 _ _ 0 _ "connection refused" (by simp) rfl
  · exact claim_C5_expansion_policy.2.2.2.1 webProbeA webProbeB "http://a.com/" hpo hsame 3
      "http://a.com/" "" 0 (CrawlState.mk ⟨[]⟩ [])

/-! ## The depth bound on an infinite chain (claim C4) -/

/-- Cutting at a character that does not occur is the identity. -/
lemma cutAtChar_of_not_mem (c : Char) : ∀ l : List Char, c ∉ l → cutAtChar c l = l := by
  intro l
  induction l with
  | nil => intro _; rfl
  | cons x xs ih =>
    intro h
    have hxc : ¬ (x = c) := fun hx => h (by rw [← hx]; exact List.mem_cons_self x xs)
    have hrest : c ∉ xs := fun hm => h (List.mem_cons_of_mem x hm)
    rw [cutAtChar, if_neg hxc, ih hrest]

/-- There is nothing after a character that does not occur. -/
lemma afterFirstOpt_of_not_mem (c : Char) : ∀ l : List Char, c ∉ l → afterFirstOpt c l = none := by
  intro l
  induction l with
  | nil => intro _; rfl
  | cons x xs ih =>
    intro h
    have hxc : ¬ (x = c) := fun hx => h (by rw [← hx]; exact List.mem_cons_self x xs)
    have hrest : c ∉ xs := fun hm => h (List.mem_cons_of_mem x hm)
    rw [afterFirstOpt, if_neg hxc, ih hrest]

/-- Escape validation succeeds when no percent sign occurs. -/
lemma validEscapes_of_no_percent : ∀ l : List Char, '%' ∉ l → validEscapes l = true := by
  intro l
  induction l with
  | nil => intro _; rfl
  | cons x xs ih =>
    intro h
    have hx : ¬ (x = '%') := fun hx => h (by rw [← hx]; exact List.mem_cons_self x xs)
    have hxs : '%' ∉ xs := fun hm => h (List.mem_cons_of_mem x hm)
    rw [validEscapes.eq_def]
    dsimp only
    rw [if_neg hx]
    exact ih hxs

lemma not_mem_append_replicate (c : Char) (p : List Char) (hc1 : c ∉ p) (hc2 : ¬ (c = 'x'))
    (n : Nat) : c ∉ p ++ List.replicate n 'x' := by
  intro h
  rcases List.mem_append.1 h with h | h
  · exact hc1 h
  · exact hc2 (List.eq_of_mem_replicate h)

lemma validEscapes_slash_rep (n : Nat) : validEscapes ('/' :: List.replicate n 'x') = true := by
  rw [validEscapes.eq_def]
  dsimp only
  rw [if_neg (by decide)]
  refine validEscapes_of_no_percent _ ?_
  intro h
  exact absurd (List.eq_of_mem_replicate h) (by decide)

lemma goParseHost_chain (n : Nat) :
    goParseHost ("http://a.com/".data ++ List.replicate n 'x') = some "a.com".data := by
  have hhash : '#' ∉ "http://a.com/".data ++ List.replicate n 'x' :=
    not_mem_append_replicate '#' _ (by decide) (by decide) n
  have hq : '?' ∉ "//a.com/".data ++ List.replicate n 'x' :=
    not_mem_append_replicate '?' _ (by decide) (by decide) n
  have hctl : (("http://a.com/".data ++ List.replicate n 'x').any isCTL) = false := by
    rw [List.any_eq_false]
    intro x hx
    rcases List.mem_append.1 hx with h | h
    · exact (by decide : ∀ y ∈ "http://a.com/".data, ¬ (isCTL y = true)) x h
    · rw [List.eq_of_mem_replicate h]; decide
  have hgs : getScheme ("http://a.com/".data ++ List.replicate n 'x') =
      some ("http".data, "//a.com/".data ++ List.replicate n 'x') := rfl
  have hpre3 : ((['/', '/', '/'] : List Char).isPrefixOf
      ("//a.com/".data ++ List.replicate n 'x')) = false := rfl
  have hpa : parseAuthority "a.com".data = some "a.com".data := rfl
  rw [goParseHost]
  simp only [cutAtChar_of_not_mem '#' _ hhash, afterFirstOpt_of_not_mem '#' _ hhash, hctl, hgs]
  simp only [Bool.false_eq_true, if_false, Bool.not_true, ite_false, ite_true]
  rw [parseAfterScheme]
  simp only [cutAtChar_of_not_mem '?' _ hq]
  simp only [show ((['/'] : List Char).isPrefixOf ("//a.com/".data ++ List.replicate n 'x')) = true from rfl,
    show ((['/', '/'] : List Char).isPrefixOf ("//a.com/".data ++ List.replicate n 'x')) = true from rfl,
    hpre3, Bool.not_true, Bool.false_and, Bool.if_false_left, Bool.true_or, Bool.true_and,
    Bool.and_true, Bool.not_false]
  simp only [show (("//a.com/".data ++ List.replicate n 'x').drop 2).takeWhile
      (fun c => c ≠ '/') = "a.com".data from rfl, hpa]
  simp only [show ((("//a.com/".data ++ List.replicate n 'x').drop 2).drop
      ("a.com".data.length)) = '/' :: List.replicate n 'x' from rfl]
  simp [validEscapes_slash_rep n]

lemma isSameDomain_isSome (u v : String) (h : isSameDomain u v = true) :
    (goURLHost u).isSome = true ∧ (goURLHost v).isSome = true := by
  rw [isSameDomain] at h
  cases hu : goURLHost u with
  | none =>
    rw [hu] at h
    cases hv : goURLHost v with
    | none => rw [hv] at h; simp at h
    | some b => rw [hv] at h; simp at h
  | some a =>
    cases hv : goURLHost v with
    | none => rw [hu, hv] at h; simp at h
    | some b => simp [hu, hv]

theorem claim_C4_depth_bound :
    maxDepth = 2 ∧
    ∀ (web : String → Fetch) (chain : Nat → String),
      (∀ i, web (chain i) = Fetch.response 200 (some [chain (i + 1)])) →
      (∀ i, isSameDomain (chain i) (chain 0) = true) →
      (∀ i j, chain i = chain j → i = j) →
      crawl web (chain 0) =
        [LinkResult.mk (chain 0) 200 none false "",
         LinkResult.mk (chain 1) 200 none false (chain 0),
         LinkResult.mk (chain 2) 200 none false (chain 1)] := by
  refine ⟨rfl, ?_⟩
  intro web chain hfetch hdom hinj
  have hne : ∀ i j : Nat, i ≠ j → chain i ≠ chain j := fun i j hij h => hij (hinj i j h)
  have hhost : ∀ i, ((goURLHost (chain i)).isNone = true) → False := by
    intro i hi
    have h1 := (isSameDomain_isSome _ _ (hdom i)).1
    rw [Option.isNone_iff_eq_none.1 hi] at h1
    simp at h1
  have hstep : ∀ (fuel : Nat) (i : Nat) (s : String) (d : Nat) (st : CrawlState),
      chain i ∉ st.visited.visited → d < 2 →
      crawlGo web (chain 0) (fuel + 1) (chain i) s d st =
        crawlGo web (chain 0) fuel (chain (i + 1)) (chain i) (d + 1)
          (CrawlState.mk ⟨chain i :: st.visited.visited⟩
            (st.results ++ [LinkResult.mk (chain i) 200 none false s])) := by
    intro fuel i s d st hm hd
    have he : crawlGo web (chain 0) (fuel + 1) =
        crawlTask web (chain 0) (crawlGo web (chain 0) fuel) := rfl
    rw [he, crawlTask]
    simp only [SafeUrlMap.Visit, if_neg hm, hfetch i]
    rw [if_neg ?hg]
    case hg =>
      rintro (hg | hg | hg)
      · rw [hdom i] at hg; cases hg
      · rw [show maxDepth = 2 from rfl] at hg; omega
      · omega
    rw [if_neg ?hh]
    case hh => exact hhost i
    rw [expandLinks, if_pos (hdom (i + 1)), expandLinks]
    rfl
  have hstop : ∀ (fuel : Nat) (i : Nat) (s : String) (st : CrawlState),
      chain i ∉ st.visited.visited →
      crawlGo web (chain 0) (fuel + 1) (chain i) s 2 st =
        CrawlState.mk ⟨chain i :: st.visited.visited⟩
          (st.results ++ [LinkResult.mk (chain i) 200 none false s]) := by
    intro fuel i s st hm
    have he : crawlGo web (chain 0) (fuel + 1) =
        crawlTask web (chain 0) (crawlGo web (chain 0) fuel) := rfl
    rw [he, crawlTask]
    simp only [SafeUrlMap.Visit, if_neg hm, hfetch i]
    rw [if_pos (Or.inr (Or.inl (by decide)))]
    rfl
  have hm0 : chain 0 ∉ (CrawlState.mk ⟨[]⟩ ([] : List LinkResult)).visited.visited := by simp
  have hm1 : chain 1 ∉ [chain 0] := by
    simp only [List.mem_singleton]
    exact hne 1 0 (by decide)
  have hm2 : chain 2 ∉ [chain 1, chain 0] := by
    simp only [List.mem_cons, List.mem_singleton, List.not_mem_nil]
    rintro (h | h | h)
    · exact hne 2 1 (by decide) h
    · exact hne 2 0 (by decide) h
    · exact h
  rw [crawl, show maxDepth + 1 = 2 + 1 from rfl,
    hstep 2 0 "" 0 (CrawlState.mk ⟨[]⟩ []) hm0 (by decide)]
  show (crawlGo web (chain 0) (1 + 1) (chain 1) (chain 0) 1
      (CrawlState.mk ⟨[chain 0]⟩ [LinkResult.mk (chain 0) 200 none false ""])).results = _
  rw [hstep 1 1 (chain 0) 1
      (CrawlState.mk ⟨[chain 0]⟩ [LinkResult.mk (chain 0) 200 none false ""]) hm1 (by decide)]
  show (crawlGo web (chain 0) (0 + 1) (chain 2) (chain 1) 2
      (CrawlState.mk ⟨[chain 1, chain 0]⟩
        [LinkResult.mk (chain 0) 200 none false "",
         LinkResult.mk (chain 1) 200 none false (chain 0)])).results = _
  rw [hstop 0 2 (chain 1)
      (CrawlState.mk ⟨[chain 1, chain 0]⟩
        [LinkResult.mk (chain 0) 200 none false "",
         LinkResult.mk (chain 1) 200 none false (chain 0)]) hm2]
  rfl

def chainW (i : Nat) : String := String.mk ("http://a.com/".data ++ List.replicate i 'x')

def webChain : String → Fetch := fun u => Fetch.response 200 (some [String.mk (u.data ++ ['x'])])

lemma goURLHost_chainW (i : Nat) : goURLHost (chainW i) = some "a.com" := by
  show (goParseHost ("http://a.com/".data ++ List.replicate i 'x')).map (fun l => String.mk l) = _
  rw [goParseHost_chain i]
  rfl

lemma webChain_fetch (i : Nat) : webChain (chainW i) = Fetch.response 200 (some [chainW (i + 1)]) := by
  show Fetch.response 200 (some [String.mk (("http://a.com/".data ++ List.replicate i 'x') ++ ['x'])]) = _
  rw [List.append_assoc, ← List.replicate_succ']
  rfl

lemma chainW_dom (i : Nat) : isSameDomain (chainW i) (chainW 0) = true := by
  rw [isSameDomain, goURLHost_chainW i, goURLHost_chainW 0]
  rfl

lemma chainW_inj (i j : Nat) (h : chainW i = chainW j) : i = j := by
  have hd : "http://a.com/".data ++ List.replicate i 'x' =
      "http://a.com/".data ++ List.replicate j 'x' := congrArg String.data h
  have hd2 := List.append_cancel_left hd
  have hlen := congrArg List.length hd2
  simpa using hlen

theorem claim_C4_depth_bound_witness :
    crawl webChain (chainW 0) =
      [LinkResult.mk (chainW 0) 200 none false "",
       LinkResult.mk (chainW 1) 200 none false (chainW 0),
       LinkResult.mk (chainW 2) 200 none false (chainW 1)] :=
  claim_C4_depth_bound.2 webChain chainW webChain_fetch chainW_dom chainW_inj

/-! ## Domain comparison (claim C6) -/

/-- Scheme names do not reach the host: after the scheme scan both URLs
continue identically. -/
lemma goParseHost_scheme_chars (l : List Char) :
    goParseHost ('h' :: 't' :: 't' :: 'p' :: ':' :: '/' :: '/' :: l) =
    goParseHost ('h' :: 't' :: 't' :: 'p' :: 's' :: ':' :: '/' :: '/' :: l) := rfl

/-- `http://` and `https://` URLs with the same remainder have the same
host (or both fail to parse). -/
lemma goURLHost_scheme (r : String) :
    goURLHost ("http://" ++ r) = goURLHost ("https://" ++ r) := by
  obtain ⟨l⟩ := r
  show (goParseHost ('h' :: 't' :: 't' :: 'p' :: ':' :: '/' :: '/' :: l)).map
      (fun h => String.mk h) =
    (goParseHost ('h' :: 't' :: 't' :: 'p' :: 's' :: ':' :: '/' :: '/' :: l)).map
      (fun h => String.mk h)
  rw [goParseHost_scheme_chars l]

/-- `isSameDomain` holds exactly when both URLs parse and their hosts
agree. -/
lemma isSameDomain_iff (u v : String) :
    isSameDomain u v = true ↔ ∃ h, goURLHost u = some h ∧ goURLHost v = some h := by
  rw [isSameDomain]
  cases hu : goURLHost u with
  | none => simp
  | some a =>
    cases hv : goURLHost v with
    | none => simp
    | some b =>
      dsimp only
      rw [beq_iff_eq]
      constructor
      · rintro rfl
        exact ⟨a, rfl, rfl⟩
      · rintro ⟨h, h1, h2⟩
        rw [Option.some.injEq] at h1 h2
        rw [h1, h2]

/-- A URL that fails to parse compares as "different domain" with
everything, on either side. -/
lemma isSameDomain_none (u v : String) (h : goURLHost u = none) :
    isSameDomain u v = false ∧ isSameDomain v u = false := by
  constructor
  · cases hv : goURLHost v with
    | none => rw [isSameDomain, h, hv]
    | some b => rw [isSameDomain, h, hv]
  · cases hv : goURLHost v with
    | none => rw [isSameDomain, hv, h]
    | some b => rw [isSameDomain, hv, h]

/-- Claim C6: domain equality parses both URL strings and compares their host
components (ports included) for exact equality: a scheme difference
(`http` vs `https`) never affects the comparison, a port difference
makes it false, and a URL that fails to parse compares as false against
everything. -/
theorem claim_C6_same_domain :
    (∀ u v : String, isSameDomain u v = true ↔
      ∃ h, goURLHost u = some h ∧ goURLHost v = some h)
  ∧ (∀ r : String, goURLHost ("http://" ++ r) = goURLHost ("https://" ++ r))
  ∧ (∀ u v : String, goURLHost u = none →
      isSameDomain u v = false ∧ isSameDomain v u = false)
  ∧ isSameDomain "http://x.com" "https://x.com" = true
  ∧ goURLHost "http://x.com:8080" = some "x.com:8080"
  ∧ isSameDomain "http://x.com:8080" "http://x.com:9090" = false
  ∧ goURLHost "http://x.com:9x9" = none :=
  ⟨isSameDomain_iff, goURLHost_scheme, isSameDomain_none,
   by decide, by decide, by decide, by decide⟩

/-- Witness for C6's conditional parts at concrete URLs. -/
theorem claim_C6_same_domain_witness :
    (isSameDomain "http://x.com" "https://x.com" = true ↔
      ∃ h, goURLHost "http://x.com" = some h ∧ goURLHost "https://x.com" = some h)
    ∧ isSameDomain "http://x.com:9x9" "http://x.com" = false
    ∧ isSameDomain "http://x.com" "http://x.com:9x9" = false :=
  ⟨claim_C6_same_domain.1 "http://x.com" "https://x.com",
   (claim_C6_same_domain.2.2.1 "http://x.com:9x9" "http://x.com" (by decide)).1,
   (claim_C6_same_domain.2.2.1 "http://x.com:9x9" "http://x.com" (by decide)).2⟩

/-- Claim C9: the exit code is always 0 or 1; with resolved inputs it is 0
exactly when the broken count of the run's results is zero; and on any
input-resolution failure it is 1, decided before any fetching (the web
oracle is never consulted). -/
theorem claim_C9_exit_code :
    ∀ (fs : String → Option String) (web : String → Fetch) (args : List String),
      (runMain fs web args = 0 ∨ runMain fs web args = 1)
    ∧ (∀ urls, resolveInput fs args = some urls →
        (runMain fs web args = 0 ↔ brokenCount (mainResults web urls) = 0))
    ∧ (resolveInput fs args = none →
        runMain fs web args = 1 ∧
        ∀ web', runMain fs web args = runMain fs web' args) := by
  intro fs web args
  refine ⟨?_, ?_, ?_⟩
  · rw [runMain]
    cases hr : resolveInput fs args with
    | none => exact Or.inr rfl
    | some urls =>
      dsimp only
      by_cases hb : 0 < brokenCount (mainResults web urls)
      · rw [if_pos hb]; exact Or.inr rfl
      · rw [if_neg hb]; exact Or.inl rfl
  · intro urls h
    rw [runMain, h]
    dsimp only
    by_cases hb : 0 < brokenCount (mainResults web urls)
    · rw [if_pos hb]
      constructor
      · intro h1; cases h1
      · intro h0; omega
    · rw [if_neg hb]
      constructor
      · intro _; omega
      · intro _; rfl
  · intro h
    refine ⟨by rw [runMain, h], ?_⟩
    intro web'
    rw [runMain, runMain, h]

/-- Witness for C9 at concrete arguments and webs. -/
theorem claim_C9_exit_code_witness :
    runMain (fun _ => none) (fun _ => Fetch.response 200 none) ["bogus"] = 1
    ∧ runMain (fun _ => none) (fun _ => Fetch.response 200 none) ["bogus"]
        = runMain (fun _ => none) (fun _ => Fetch.failure "refused") ["bogus"]
    ∧ (runMain (fun _ => none) (fun _ => Fetch.response 200 none) ["http://a.com/"] = 0 ↔
        brokenCount (mainResults (fun _ => Fetch.response 200 none) ["http://a.com/"]) = 0) :=
  ⟨((claim_C9_exit_code (fun _ => none) (fun _ => Fetch.response 200 none) ["bogus"]).2.2
      (by decide)).1,
   ((claim_C9_exit_code (fun _ => none) (fun _ => Fetch.response 200 none) ["bogus"]).2.2
      (by decide)).2 (fun _ => Fetch.failure "refused"),
   (claim_C9_exit_code (fun _ => none) (fun _ => Fetch.response 200 none)
      ["http://a.com/"]).2.1 ["http://a.com/"] (by decide)⟩

/-! ## Text-link extraction (claims C8, C10) -/

/-- Deduplication output avoids the seen set. -/
lemma dedupAux_not_mem_seen :
    ∀ (l seen : List String) (x : String), x ∈ dedupAux seen l → x ∉ seen := by
  intro l
  induction l with
  | nil => intro seen x h; cases h
  | cons y ys ih =>
    intro seen x h
    rw [dedupAux] at h
    by_cases hy : y ∈ seen
    · rw [if_pos hy] at h
      exact ih seen x h
    · rw [if_neg hy] at h
      rcases List.mem_cons.1 h with rfl | h2
      · exact hy
      · intro hx
        exact ih (y :: seen) x h2 (List.mem_cons_of_mem y hx)

/-- Deduplication output has no duplicates. -/
lemma dedupAux_nodup : ∀ (l seen : List String), (dedupAux seen l).Nodup := by
  intro l
  induction l with
  | nil => intro seen; exact List.nodup_nil
  | cons y ys ih =>
    intro seen
    rw [dedupAux]
    by_cases hy : y ∈ seen
    · rw [if_pos hy]; exact ih seen
    · rw [if_neg hy]
      refine List.nodup_cons.2 ⟨?_, ih (y :: seen)⟩
      intro hmem
      exact dedupAux_not_mem_seen ys (y :: seen) y hmem (List.mem_cons_self y seen)

/-- Deduplication only keeps elements of its input. -/
lemma dedupAux_subset : ∀ (l seen : List String) (x : String), x ∈ dedupAux seen l → x ∈ l := by
  intro l
  induction l with
  | nil => intro seen x h; cases h
  | cons y ys ih =>
    intro seen x h
    rw [dedupAux] at h
    by_cases hy : y ∈ seen
    · rw [if_pos hy] at h
      exact List.mem_cons_of_mem y (ih seen x h)
    · rw [if_neg hy] at h
      rcases List.mem_cons.1 h with rfl | h2
      · exact List.mem_cons_self x ys
      · exact List.mem_cons_of_mem y (ih (y :: seen) x h2)

/-- Membership through position-sorted insertion. -/
lemma insertByPos_mem (x y : String × Nat) :
    ∀ l, x ∈ insertByPos y l → x = y ∨ x ∈ l := by
  intro l
  induction l with
  | nil =>
    intro h
    rcases List.mem_singleton.1 h with rfl
    exact Or.inl rfl
  | cons z zs ih =>
    intro h
    rw [insertByPos] at h
    by_cases hp : y.2 < z.2
    · rw [if_pos hp] at h
      rcases List.mem_cons.1 h with rfl | h2
      · exact Or.inl rfl
      · exact Or.inr h2
    · rw [if_neg hp] at h
      rcases List.mem_cons.1 h with rfl | h2
      · exact Or.inr (List.mem_cons_self _ _)
      · rcases ih h2 with h3 | h3
        · exact Or.inl h3
        · exact Or.inr (List.mem_cons_of_mem z h3)

/-- Membership through position sorting. -/
lemma sortByPos_mem (x : String × Nat) : ∀ l, x ∈ sortByPos l → x ∈ l := by
  intro l
  induction l with
  | nil => intro h; cases h
  | cons y ys ih =>
    intro h
    rw [sortByPos] at h
    rcases insertByPos_mem x y (sortByPos ys) h with rfl | h2
    · exact List.mem_cons_self _ _
    · exact List.mem_cons_of_mem y (ih h2)

/-- Every extracted URL is an accepted Markdown target or a kept
(unmasked) bare URL. -/
lemma extract_mem_decompose (content : String) (u : String)
    (h : u ∈ extractMarkdownLinks content) :
    u ∈ (mdAccepted content.data).map Prod.fst ∨
    u ∈ (bareKept content.data).map Prod.fst := by
  rw [extractMarkdownLinks] at h
  have h1 := dedupAux_subset _ _ _ h
  rcases List.mem_map.1 h1 with ⟨p, hp, rfl⟩
  have hp2 := sortByPos_mem p _ hp
  rcases List.mem_append.1 hp2 with h3 | h3
  · exact Or.inl (List.mem_map_of_mem Prod.fst h3)
  · exact Or.inr (List.mem_map_of_mem Prod.fst h3)

/-- A list is a prefix of itself followed by anything. -/
lemma isPrefixOf_append_self : ∀ (p l : List Char), p.isPrefixOf (p ++ l) = true := by
  intro p l
  induction p with
  | nil => cases l <;> rfl
  | cons a p ih => simp [List.isPrefixOf, ih]

/-- Trimming keeps the scheme prefix of a bare-URL match. -/
lemma trim_keeps_http (pre run : List Char)
    (hpre : pre = "http://".data ∨ pre = "https://".data) :
    isHttpUrl (goTrimChars (pre ++ run)) = true := by
  have hfront : (pre ++ run).dropWhile goIsSpace = pre ++ run := by
    rcases hpre with h | h <;> rw [h] <;> rfl
  rw [goTrimChars, hfront, List.reverse_append, List.dropWhile_append]
  by_cases he : ((run.reverse.dropWhile goIsSpace).isEmpty) = true
  · rw [if_pos he]
    rcases hpre with h | h <;> rw [h] <;> rfl
  · rw [if_neg he, List.reverse_append, List.reverse_reverse]
    rcases hpre with h | h <;> rw [h, isHttpUrl]
    · rw [isPrefixOf_append_self]
      rfl
    · rw [isPrefixOf_append_self]
      simp

/-- Every bare-URL match starts with a scheme followed by a nonempty
run. -/
lemma bareMatchAt_shape (l u : List Char) (len : Nat)
    (h : bareMatchAt l = some (u, len)) :
    (∃ run, u = "http://".data ++ run) ∨ (∃ run, u = "https://".data ++ run) := by
  rw [bareMatchAt.eq_def] at h
  split at h
  · split at h
    · dsimp only at h
      split at h
      · cases h
      · rw [Option.some.injEq, Prod.mk.injEq] at h
        exact Or.inr ⟨_, h.1.symm⟩
    · dsimp only at h
      split at h
      · cases h
      · rw [Option.some.injEq, Prod.mk.injEq] at h
        exact Or.inl ⟨_, h.1.symm⟩
    · cases h
  · cases h

/-- Every match the bare scan records comes from `bareMatchAt`. -/
lemma bareScanF_chars :
    ∀ (fuel : Nat) (l : List Char) (pos : Nat) (b : ScanMatch),
      b ∈ bareScanF fuel l pos → ∃ l2 len, bareMatchAt l2 = some (b.chars, len) := by
  intro fuel
  induction fuel with
  | zero => intro l pos b h; cases h
  | succ f ih =>
    intro l pos b h
    cases l with
    | nil => cases h
    | cons c rest =>
      rw [bareScanF] at h
      cases hb : bareMatchAt (c :: rest) with
      | some p =>
        rw [hb] at h
        rcases List.mem_cons.1 h with rfl | h2
        · exact ⟨c :: rest, p.2, by rw [hb]⟩
        · exact ih _ _ _ h2
      | none =>
        rw [hb] at h
        exact ih _ _ _ h

/-- Accepted Markdown targets start with a scheme. -/
lemma mdAccepted_http (cs : List Char) (p : String × Nat) (hp : p ∈ mdAccepted cs) :
    isHttpUrl p.1.data = true := by
  rw [mdAccepted] at hp
  rcases List.mem_filterMap.1 hp with ⟨m, _, hm⟩
  by_cases hh : isHttpUrl (goTrimChars m.chars) = true
  · rw [if_pos hh] at hm
    rw [Option.some.injEq] at hm
    rw [← hm]
    exact hh
  · rw [if_neg hh] at hm
    cases hm

/-- Kept bare URLs start with a scheme. -/
lemma bareKept_http (cs : List Char) (p : String × Nat) (hp : p ∈ bareKept cs) :
    isHttpUrl p.1.data = true := by
  rw [bareKept] at hp
  rcases List.mem_filterMap.1 hp with ⟨b, hb, hm⟩
  by_cases hmask : ((mdScan cs).any
      (fun m => decide (m.start ≤ b.start) && decide (b.stop ≤ m.stop))) = true
  · rw [if_pos hmask] at hm
    cases hm
  · rw [if_neg hmask] at hm
    rw [Option.some.injEq] at hm
    rw [← hm]
    obtain ⟨l2, len, hmat⟩ := bareScanF_chars cs.length cs 0 b hb
    rcases bareMatchAt_shape l2 b.chars len hmat with ⟨run, hr⟩ | ⟨run, hr⟩
    · rw [hr]
      exact trim_keeps_http _ run (Or.inl rfl)
    · rw [hr]
      exact trim_keeps_http _ run (Or.inr rfl)

/-- Claim C8: text-link extraction on the spec's scenario input yields exactly
`["https://x.com"]` — the Markdown target and the bare occurrence are
merged and deduplicated — and in general the output is duplicate-free
and contains only absolute `http(s)` URLs (relative targets are
skipped). -/
theorem claim_C8_markdown_extraction :
    extractMarkdownLinks "[A](https://x.com) and https://x.com" = ["https://x.com"]
  ∧ (∀ content : String, (extractMarkdownLinks content).Nodup)
  ∧ (∀ (content : String) (u : String), u ∈ extractMarkdownLinks content →
      isHttpUrl u.data = true) := by
  refine ⟨by decide, ?_, ?_⟩
  · intro content
    rw [extractMarkdownLinks]
    exact dedupAux_nodup _ []
  · intro content u h
    rcases extract_mem_decompose content u h with h2 | h2
    · rcases List.mem_map.1 h2 with ⟨p, hp, rfl⟩
      exact mdAccepted_http content.data p hp
    · rcases List.mem_map.1 h2 with ⟨p, hp, rfl⟩
      exact bareKept_http content.data p hp

/-- Witness for C8's conditional part at the scenario input. -/
theorem claim_C8_markdown_extraction_witness :
    (extractMarkdownLinks "[A](https://x.com) and https://x.com").Nodup
    ∧ isHttpUrl (String.data "https://x.com") = true :=
  ⟨claim_C8_markdown_extraction.2.1 "[A](https://x.com) and https://x.com",
   claim_C8_markdown_extraction.2.2 "[A](https://x.com) and https://x.com" "https://x.com"
     (by decide)⟩

/-- Claim C10: a bare URL lying inside the span of a Markdown-link regex match
is masked even when that match's target is rejected (e.g. a relative
path): `skipRanges` is built from every regex match, so the bare URL is
omitted entirely; in general every output URL arises from an accepted
Markdown target or from a bare occurrence outside all Markdown-match
spans. -/
theorem claim_C10_rejected_span_masks :
    extractMarkdownLinks "[see https://x.com](/relative/path)" = []
  ∧ (∀ (content : String) (u : String), u ∈ extractMarkdownLinks content →
      u ∈ (mdAccepted content.data).map Prod.fst ∨
      u ∈ (bareKept content.data).map Prod.fst) :=
  ⟨by decide, extract_mem_decompose⟩

/-- Witness for C10's conditional part at a concrete document. -/
theorem claim_C10_rejected_span_masks_witness :
    "https://x.com" ∈ (mdAccepted (String.data "x https://x.com")).map Prod.fst ∨
    "https://x.com" ∈ (bareKept (String.data "x https://x.com")).map Prod.fst :=
  claim_C10_rejected_span_masks.2 "x https://x.com" "https://x.com" (by decide)
